import Mathlib

/-!
Verification of the dictionary/password combination generators
(`generator.c` and `combination_dictionary.c`).

The definitions below are a shallow embedding of the C sources:
pure data is translated to Lean data (`List Char` for byte strings,
`Nat` for the 128-bit counters with explicit `2 ^ 128` bounds where
overflow matters), and the stateful generation loops are translated
to structurally recursive functions on the loop state.
-/

namespace Dict

/-- `WordInfo` from generator.c: a dictionary token plus its stored length. -/
structure WordInfo where
  word : List Char
  len : Nat
deriving DecidableEq

def defaultWord : WordInfo := ⟨[], 0⟩

/-- Per-thread output buffer size, generator.c line 110. -/
def BUFFER_SIZE : Nat := 4 * 1024 * 1024

/-- Assumed worst-case line size used by the flush test, generator.c line 111. -/
def MAX_LINE_SIZE : Nat := 2048

/-- generator.c line 39. -/
def MAX_WORD_LENGTH : Nat := 256

/-- `is_power_of_two` from generator.c lines 251-253. -/
def is_power_of_two (n : Nat) : Bool :=
  decide (0 < n) && (n &&& (n - 1) == 0)

/-- The loop body of `int_pow128` (generator.c lines 255-263): multiply the
accumulator by `base` `e` times, returning 0 as soon as a step would leave
the unsigned 128-bit range. -/
def powLoop (base : Nat) : Nat → Nat → Nat
  | acc, 0 => acc
  | acc, e + 1 => if acc * base < 2 ^ 128 then powLoop base (acc * base) e else 0

/-- `int_pow128` from generator.c: `base ^ e` in a 128-bit unsigned integer,
0 on overflow. -/
def int_pow128 (base e : Nat) : Nat := powLoop base 1 e

/-- Base-`n` decomposition of a linear index, least-significant digit first.
This is the digit list computed by generator.c lines 142-145 (the C loop
stores the least significant digit at `indices[L-1]`, so this list is the
`indices` array read back-to-front). -/
def digitsLSF (n : Nat) : Nat → Nat → List Nat
  | 0, _ => []
  | l + 1, idx => idx % n :: digitsLSF n l (idx / n)

/-- The shift/mask specialization of the decomposition, generator.c
lines 136-140: `indices[k] = idx &&& mask; idx >>>= shift`. -/
def digitsMaskLSF (shift mask : Nat) : Nat → Nat → List Nat
  | 0, _ => []
  | l + 1, idx => (idx &&& mask) :: digitsMaskLSF shift mask l (idx >>> shift)

/-- The odometer increment, generator.c lines 168-171, acting on the
least-significant-first digit list (the C loop increments `indices[L-1]`
first and carries towards index 0). -/
def odoInc (n : Nat) : List Nat → List Nat
  | [] => []
  | d :: ds => if d + 1 < n then (d + 1) :: ds else 0 :: odoInc n ds

/-- Fuel-bounded floor of the binary logarithm; `shiftBits` below models
`(int)log2((double)num_words)` from generator.c line 318, which is exact on
the power-of-two sizes where it is used. -/
def log2floor : Nat → Nat → Nat
  | 0, _ => 0
  | fuel + 1, n => if 2 ≤ n then log2floor fuel (n / 2) + 1 else 0

/-- The `shift_bits` value computed by generator.c line 318. -/
def shiftBits (n : Nat) : Nat := log2floor n n

/-- The initial digit state of a sequential worker thread: the start index
decomposed either by shift/mask (power-of-two dictionary size) or by
division/modulo, generator.c lines 134-146 with the parameters computed in
`main` (lines 317-318, 371-373). -/
def workerInit (n l start : Nat) : List Nat :=
  if is_power_of_two n then digitsMaskLSF (shiftBits n) (n - 1) l start
  else digitsLSF n l start

/-- Run the sequential generation loop for `count` iterations from a digit
state, emitting the index tuple (in array order, most significant first)
of every iteration: generator.c lines 148-172. -/
def odoRun (n : Nat) : List Nat → Nat → List (List Nat)
  | _, 0 => []
  | st, c + 1 => st.reverse :: odoRun n (odoInc n st) c

/-- The index tuples emitted by one sequential worker thread. -/
def workerTuples (n l start count : Nat) : List (List Nat) :=
  odoRun n (workerInit n l start) count

/-- Formatting of one combination body, generator.c lines 156-164 (and the
identical logic of `generate_random_line`, lines 95-106): each token's
bytes, with a single space between consecutive tokens unless `noSpaces`. -/
def formatTokens (words : List WordInfo) (noSpaces : Bool) : List Nat → List Char
  | [] => []
  | [k] => (words.getD k defaultWord).word
  | k :: rest =>
    (words.getD k defaultWord).word ++ (if noSpaces then [] else [' '])
      ++ formatTokens words noSpaces rest

/-- One full output line: the formatted combination followed by the newline
written at generator.c line 165 (resp. line 130). -/
def formatLine (words : List WordInfo) (noSpaces : Bool) (idxs : List Nat) : List Char :=
  formatTokens words noSpaces idxs ++ ['\n']

/-- Per-worker combination count, generator.c line 362 / combination_dictionary.c
line 654: `total / N` plus one more for the first `total % N` workers. -/
def workerCount (total numThreads i : Nat) : Nat :=
  total / numThreads + (if i < total % numThreads then 1 else 0)

/-- Per-worker start index: the counts of the preceding workers accumulated
in order, generator.c lines 357-377 / combination_dictionary.c lines 649-664. -/
def workerStart (total numThreads i : Nat) : Nat :=
  ((List.range i).map (workerCount total numThreads)).sum

/-- The lines emitted for one requested length in sequential mode:
generator.c `main`, lines 340-386 (the `len > MAX_WORD_LENGTH` skip, the
zero-total skip, and the spawned sequential workers, whose interleaving we
read back in worker order). -/
def runLengthLines (words : List WordInfo) (l numThreads : Nat) (noSpaces : Bool) :
    List (List Char) :=
  if MAX_WORD_LENGTH < l then []
  else
    let total := int_pow128 words.length l
    if total = 0 ∧ (1 < words.length ∨ 0 < l) then []
    else
      (List.range numThreads).flatMap fun i =>
        (workerTuples words.length l (workerStart total numThreads i)
            (workerCount total numThreads i)).map (formatLine words noSpaces)

/-- generator.c `main` in sequential mode, after a successful dictionary
load and argument validation: exit code and emitted lines over the
requested (possibly swapped) length range. -/
def generatorMain (words : List WordInfo) (sLen eLen numThreads : Nat) (noSpaces : Bool) :
    Nat × List (List Char) :=
  let a := if sLen ≤ eLen then sLen else eLen
  let b := if sLen ≤ eLen then eLen else sLen
  (0, (List.range' a (b + 1 - a)).flatMap fun l => runLengthLines words l numThreads noSpaces)

/-- Bytes appended to the write buffer for one combination body: the
`buffer_offset` arithmetic of generator.c lines 156-164, which advances by
each token's stored `len` plus the separators. -/
def lineAdvance (words : List WordInfo) (noSpaces : Bool) : List Nat → Nat
  | [] => 0
  | [k] => (words.getD k defaultWord).len
  | k :: rest =>
    (words.getD k defaultWord).len + (if noSpaces then 0 else 1)
      + lineAdvance words noSpaces rest

/-- The buffer-offset dynamics of the sequential worker, generator.c
lines 148-166: before each line, flush (reset the offset to 0) when the
remaining capacity is below `MAX_LINE_SIZE`; then append the line.  Returns
`true` iff every line write ends within the `BUFFER_SIZE`-byte buffer. -/
def bufLoop (words : List WordInfo) (noSpaces : Bool) (n : Nat) :
    List Nat → Nat → Nat → Bool
  | _, _, 0 => true
  | st, off, c + 1 =>
    let off1 := if BUFFER_SIZE - off < MAX_LINE_SIZE then 0 else off
    let sz := lineAdvance words noSpaces st.reverse + 1
    decide (off1 + sz ≤ BUFFER_SIZE) && bufLoop words noSpaces n (odoInc n st) (off1 + sz) c

/-- `true` iff every byte written by a sequential worker with the given
thread parameters lands inside its write buffer. -/
def seqWriteBound (words : List WordInfo) (noSpaces : Bool) (l start count : Nat) : Bool :=
  bufLoop words noSpaces words.length (workerInit words.length l start) 0 count

/-! ### Dictionary loading, generator.c `read_dictionary` (lines 208-241) -/

/-- One `fgets` call on a 1024-byte buffer: consume up to 1023 characters,
stopping after a newline (which is kept in the chunk). -/
def fgetsChunk : Nat → List Char → List Char × List Char
  | _, [] => ([], [])
  | 0, rest => ([], rest)
  | k + 1, c :: rest =>
    if c = '\n' then ([c], rest)
    else
      let p := fgetsChunk k rest
      (c :: p.1, p.2)

/-- The `while (fgets(...))` loop: split the file contents into successive
`fgets` chunks.  The fuel argument is bounded by the content length, which
suffices because every chunk of a nonempty input is nonempty. -/
def splitFgetsGo : Nat → List Char → List (List Char)
  | 0, _ => []
  | _, [] => []
  | fuel + 1, s =>
    let p := fgetsChunk 1023 s
    p.1 :: splitFgetsGo fuel p.2

def splitFgets (s : List Char) : List (List Char) := splitFgetsGo s.length s

/-- `read_dictionary` from generator.c: for each `fgets` chunk, keep the
characters before the first `'\r'` or `'\n'` (`strcspn(buffer, "\r\n")`)
and skip the line when that is empty. -/
def read_dictionary (content : List Char) : List (List Char) :=
  (splitFgets content).filterMap fun line =>
    let tok := line.takeWhile fun c => !(c == '\r') && !(c == '\n')
    if tok = [] then none else some tok

/-! ### combination_dictionary.c -/

/-- The line-indexing scan of `map_and_index_file`
(combination_dictionary.c lines 476-506): the segments between `'\n'`
characters, with a final unterminated segment kept only when nonempty.
The accumulator holds the current segment's characters in reverse. -/
def indexLinesGo : List Char → List Char → List (List Char)
  | acc, [] => if acc.isEmpty then [] else [acc.reverse]
  | acc, c :: rest =>
    if c = '\n' then acc.reverse :: indexLinesGo [] rest
    else indexLinesGo (c :: acc) rest

def indexLines (content : List Char) : List (List Char) := indexLinesGo [] content

/-- `map_and_index_file` (POSIX branch, combination_dictionary.c
lines 464-507): fails on an empty file or when no line is found. -/
def map_and_index_file (content : List Char) : Option (List (List Char)) :=
  if content = [] then none
  else if indexLines content = [] then none
  else some (indexLines content)

/-- `generate_sequential_combinations` (combination_dictionary.c
lines 142-168, first program): the nested loop over every
(prefix line, suffix line) pair, each output line being the two tokens
concatenated followed by a newline. -/
def generate_sequential_combinations (pre suf : List (List Char)) : List (List Char) :=
  pre.flatMap fun p => suf.map fun s => p ++ s ++ ['\n']

/-- The depth-2 odometer of the sequential `generation_worker`
(combination_dictionary.c lines 552-569): emit `(p_idx, s_idx)`, then
increment `s_idx`, carrying into `p_idx` on wraparound. -/
def pairOdoRun (s : Nat) : Nat → Nat → Nat → List (Nat × Nat)
  | _, _, 0 => []
  | pIdx, sIdx, c + 1 =>
    (pIdx, sIdx) ::
      (if sIdx + 1 ≥ s then pairOdoRun s (pIdx + 1) 0 c else pairOdoRun s pIdx (sIdx + 1) c)

/-- The lines emitted by one sequential worker of the threaded
combination generator, starting from `start_index / S_COUNT`,
`start_index % S_COUNT` (combination_dictionary.c lines 552-553). -/
def cdWorkerLines (pre suf : List (List Char)) (start count : Nat) : List (List Char) :=
  (pairOdoRun suf.length (start / suf.length) (start % suf.length) count).map
    fun pr => pre.getD pr.1 [] ++ suf.getD pr.2 [] ++ ['\n']

/-- All lines of the threaded sequential combination run
(combination_dictionary.c `main`, lines 643-673), read back in worker
order. -/
def cdSeqLines (pre suf : List (List Char)) (numThreads : Nat) : List (List Char) :=
  (List.range numThreads).flatMap fun i =>
    cdWorkerLines pre suf (workerStart (pre.length * suf.length) numThreads i)
      (workerCount (pre.length * suf.length) numThreads i)

/-- combination_dictionary.c `main` in sequential mode: map both files,
exiting with code 1 when either mapping fails, else emit the combination
lines and exit 0. -/
def cdMain (preContent sufContent : List Char) (numThreads : Nat) : Nat × List (List Char) :=
  match map_and_index_file preContent, map_and_index_file sufContent with
  | some ps, some ss => (0, cdSeqLines ps ss (if numThreads = 0 then 1 else numThreads))
  | _, _ => (1, [])

/-! ### The full cartesian power, reference enumeration -/

/-- All length-`l` tuples over `{0, ..., n-1}` in lexicographic order,
most significant position first: the cartesian power `D^l` at the level of
dictionary indices. -/
def allTuples (n : Nat) : Nat → List (List Nat)
  | 0 => [[]]
  | l + 1 => (allTuples n l).flatMap fun t => (List.range n).map fun d => t ++ [d]

/-- Horner recomposition of a least-significant-first digit list: the
left inverse of `digitsLSF`. -/
def valLSF (n : Nat) : List Nat → Nat
  | [] => 0
  | d :: ds => d + n * valLSF n ds

/-! ## Lemmas: odometer stepping is linear-index increment -/

lemma odoInc_digitsLSF (n : Nat) (hn : 0 < n) :
    ∀ l i, i + 1 ≤ n ^ l → odoInc n (digitsLSF n l i) = digitsLSF n l (i + 1) := by
  intro l
  induction l with
  | zero => intro i _; simp [digitsLSF, odoInc]
  | succ l ih =>
    intro i h
    have hq := Nat.div_add_mod i n
    have hr : i % n < n := Nat.mod_lt i hn
    simp only [digitsLSF, odoInc]
    by_cases hc : i % n + 1 < n
    · have hi : i + 1 = (i % n + 1) + n * (i / n) := by omega
      have h1 : (i + 1) % n = i % n + 1 := by
        rw [hi, Nat.add_mul_mod_self_left, Nat.mod_eq_of_lt hc]
      have h2 : (i + 1) / n = i / n := by
        rw [hi, Nat.add_mul_div_left _ _ hn, Nat.div_eq_of_lt hc, Nat.zero_add]
      rw [if_pos hc, h1, h2]
    · have he : i % n + 1 = n := by omega
      have hi : i + 1 = n * (i / n + 1) := by rw [Nat.mul_succ]; omega
      have h1 : (i + 1) % n = 0 := by rw [hi]; exact Nat.mul_mod_right _ _
      have h2 : (i + 1) / n = i / n + 1 := by rw [hi]; exact Nat.mul_div_cancel_left _ hn
      have hbound : i / n + 1 ≤ n ^ l := by
        have hle : n * (i / n + 1) ≤ n * n ^ l := by
          rw [← hi]
          calc i + 1 ≤ n ^ (l + 1) := h
            _ = n * n ^ l := by rw [pow_succ, Nat.mul_comm]
        exact Nat.le_of_mul_le_mul_left hle hn
      rw [if_neg hc, h1, h2, ih (i / n) hbound]

lemma odoRun_digitsLSF (n : Nat) (hn : 0 < n) (l : Nat) :
    ∀ count start, start + count ≤ n ^ l →
      odoRun n (digitsLSF n l start) count
        = (List.range' start count).map fun i => (digitsLSF n l i).reverse := by
  intro count
  induction count with
  | zero => intro start _; simp [odoRun]
  | succ c ih =>
    intro start h
    rw [List.range'_succ, List.map_cons]
    simp only [odoRun]
    rw [odoInc_digitsLSF n hn l start (by omega), ih (start + 1) (by omega)]

/-! ## Lemmas: the shift/mask specialization -/

lemma digitsMaskLSF_eq (k : Nat) :
    ∀ l i, digitsMaskLSF k (2 ^ k - 1) l i = digitsLSF (2 ^ k) l i := by
  intro l
  induction l with
  | zero => intro i; rfl
  | succ l ih =>
    intro i
    simp only [digitsMaskLSF, digitsLSF]
    rw [Nat.and_pow_two_sub_one_eq_mod, Nat.shiftRight_eq_div_pow, ih]

lemma exists_pow_of_and_pred : ∀ n, 0 < n → n &&& (n - 1) = 0 → ∃ k, n = 2 ^ k := by
  intro n
  induction n using Nat.strong_induction_on with
  | _ n ih =>
    intro hp h
    rcases Nat.lt_or_ge n 2 with h2 | h2
    · have h1 : n = 1 := by omega
      exact ⟨0, by simp [h1]⟩
    · have hd : (n &&& (n - 1)) / 2 = (n / 2) &&& ((n - 1) / 2) := Nat.and_div_two
      rcases Nat.lt_or_ge (n % 2) 1 with he | ho
      · have he2 : (n - 1) / 2 = n / 2 - 1 := by omega
        rw [h, he2, Nat.zero_div] at hd
        obtain ⟨k, hk⟩ := ih (n / 2) (by omega) (by omega) hd.symm
        exact ⟨k + 1, by rw [pow_succ, ← hk]; omega⟩
      · have he2 : (n - 1) / 2 = n / 2 := by omega
        rw [h, he2, Nat.and_self] at hd
        omega

lemma is_power_of_two_spec {n : Nat} (h : is_power_of_two n = true) :
    ∃ k, n = 2 ^ k := by
  have h' : 0 < n ∧ n &&& (n - 1) = 0 := by
    simpa [is_power_of_two] using h
  exact exists_pow_of_and_pred n h'.1 h'.2

lemma log2floor_pow : ∀ k fuel, 2 ^ k ≤ fuel → log2floor fuel (2 ^ k) = k := by
  intro k
  induction k with
  | zero =>
    intro fuel hf
    cases fuel with
    | zero => simp at hf
    | succ f => simp [log2floor]
  | succ k ih =>
    intro fuel hf
    have h1 : 1 ≤ 2 ^ k := Nat.one_le_two_pow
    have h2 : (2 : Nat) ^ (k + 1) = 2 ^ k * 2 := pow_succ 2 k
    cases fuel with
    | zero => omega
    | succ f =>
      simp only [log2floor]
      rw [if_pos (by omega)]
      have hdiv : 2 ^ (k + 1) / 2 = 2 ^ k := by
        rw [h2]
        exact Nat.mul_div_cancel _ (by omega)
      rw [hdiv, ih f (by omega)]

lemma shiftBits_pow (k : Nat) : shiftBits (2 ^ k) = k :=
  log2floor_pow k (2 ^ k) (Nat.le_refl _)

lemma workerInit_eq (n l start : Nat) : workerInit n l start = digitsLSF n l start := by
  unfold workerInit
  by_cases h : is_power_of_two n = true
  · rw [if_pos h]
    obtain ⟨k, rfl⟩ := is_power_of_two_spec h
    rw [shiftBits_pow]
    exact digitsMaskLSF_eq k l start
  · rw [if_neg h]

lemma workerTuples_eq (n l : Nat) (hn : 0 < n) (start count : Nat)
    (h : start + count ≤ n ^ l) :
    workerTuples n l start count
      = (List.range' start count).map fun i => (digitsLSF n l i).reverse := by
  unfold workerTuples
  rw [workerInit_eq, odoRun_digitsLSF n hn l count start h]

lemma valLSF_digitsLSF (n : Nat) (hn : 0 < n) :
    ∀ l i, i < n ^ l → valLSF n (digitsLSF n l i) = i := by
  intro l
  induction l with
  | zero =>
    intro i h
    rw [pow_zero] at h
    have h0 : i = 0 := by omega
    simp [digitsLSF, valLSF, h0]
  | succ l ih =>
    intro i h
    have hdiv : i / n < n ^ l := by
      rw [Nat.div_lt_iff_lt_mul hn]
      calc i < n ^ (l + 1) := h
        _ = n ^ l * n := pow_succ n l
    simp only [digitsLSF, valLSF]
    rw [ih (i / n) hdiv]
    exact Nat.mod_add_div i n

/-! ## Lemmas: the thread partitioner -/

lemma workerStart_succ (total numT i : Nat) :
    workerStart total numT (i + 1) = workerStart total numT i + workerCount total numT i := by
  unfold workerStart
  rw [List.range_succ, List.map_append, List.sum_append]
  simp

lemma workerStart_val (total numT : Nat) :
    ∀ j, workerStart total numT j = j * (total / numT) + min j (total % numT) := by
  intro j
  induction j with
  | zero => simp [workerStart]
  | succ j ih =>
    rw [workerStart_succ, ih]
    unfold workerCount
    rw [Nat.succ_mul]
    rcases Nat.lt_or_ge j (total % numT) with hlt | hge
    · rw [if_pos hlt]; omega
    · rw [if_neg (by omega)]; omega

lemma workerStart_last (total numT : Nat) (h : 0 < numT) :
    workerStart total numT numT = total := by
  rw [workerStart_val]
  have h1 : total % numT < numT := Nat.mod_lt _ h
  have h2 : numT * (total / numT) + total % numT = total := Nat.div_add_mod total numT
  have h3 : numT * (total / numT) = total / numT * numT := Nat.mul_comm _ _
  omega

lemma workerStart_mono (total numT : Nat) :
    ∀ i j, i ≤ j → workerStart total numT i ≤ workerStart total numT j := by
  intro i j hij
  induction j with
  | zero =>
    have h0 : i = 0 := by omega
    rw [h0]
  | succ j ih =>
    rcases Nat.lt_or_ge i (j + 1) with hlt | hge
    · have h1 := ih (by omega)
      rw [workerStart_succ]
      omega
    · have h1 : i = j + 1 := by omega
      rw [h1]

lemma partition_range (total numT : Nat) (h : 0 < numT) :
    ((List.range numT).flatMap fun i =>
        List.range' (workerStart total numT i) (workerCount total numT i))
      = List.range total := by
  have aux : ∀ j, ((List.range j).flatMap fun i =>
      List.range' (workerStart total numT i) (workerCount total numT i))
      = List.range' 0 (workerStart total numT j) := by
    intro j
    induction j with
    | zero => simp [workerStart]
    | succ j ih =>
      rw [List.range_succ, List.flatMap_append, ih]
      simp only [List.flatMap_cons, List.flatMap_nil, List.append_nil]
      rw [workerStart_succ]
      have h2 := List.range'_append_1 0 (workerStart total numT j) (workerCount total numT j)
      rw [Nat.zero_add, Nat.add_comm (workerCount total numT j)] at h2
      exact h2
  rw [aux, workerStart_last total numT h, List.range_eq_range']

/-! ## Lemmas: enumeration order equals the lexicographic cartesian power -/

lemma range_mul_flatMap (a b : Nat) :
    List.range (a * b)
      = (List.range a).flatMap fun q => (List.range b).map fun r => q * b + r := by
  induction a with
  | zero => simp
  | succ a ih =>
    rw [Nat.succ_mul, List.range_add, ih, List.range_succ, List.flatMap_append]
    simp only [List.flatMap_cons, List.flatMap_nil, List.append_nil]

lemma map_digits_range (n : Nat) (hn : 0 < n) :
    ∀ l, (List.range (n ^ l)).map (fun i => (digitsLSF n l i).reverse) = allTuples n l := by
  intro l
  induction l with
  | zero => simp [digitsLSF, allTuples, List.range_succ]
  | succ l ih =>
    have hb : ∀ q, (((List.range n).map fun r => q * n + r).map
        fun i => (digitsLSF n (l + 1) i).reverse)
        = (List.range n).map fun d => (digitsLSF n l q).reverse ++ [d] := by
      intro q
      rw [List.map_map]
      apply List.map_congr_left
      intro r hr
      have hrn : r < n := List.mem_range.mp hr
      have h1 : (q * n + r) % n = r := by
        rw [Nat.mul_comm q n, Nat.mul_add_mod, Nat.mod_eq_of_lt hrn]
      have h2 : (q * n + r) / n = q := by
        rw [Nat.mul_comm q n, Nat.mul_add_div hn, Nat.div_eq_of_lt hrn, Nat.add_zero]
      simp [Function.comp, digitsLSF, h1, h2]
    calc (List.range (n ^ (l + 1))).map (fun i => (digitsLSF n (l + 1) i).reverse)
        = ((List.range (n ^ l)).flatMap fun q =>
            (List.range n).map fun r => q * n + r).map
              (fun i => (digitsLSF n (l + 1) i).reverse) := by
          rw [pow_succ, range_mul_flatMap]
      _ = (List.range (n ^ l)).flatMap fun q =>
            (((List.range n).map fun r => q * n + r).map
              fun i => (digitsLSF n (l + 1) i).reverse) := by
          rw [List.map_flatMap]
      _ = (List.range (n ^ l)).flatMap fun q =>
            (List.range n).map fun d => (digitsLSF n l q).reverse ++ [d] := by
          exact congrArg _ (funext hb)
      _ = allTuples n (l + 1) := by
          show _ = (allTuples n l).flatMap fun t => (List.range n).map fun d => t ++ [d]
          rw [← ih, List.flatMap_map]

lemma mem_allTuples (n : Nat) :
    ∀ l t, t ∈ allTuples n l ↔ (t.length = l ∧ ∀ d ∈ t, d < n) := by
  intro l
  induction l with
  | zero =>
    intro t
    constructor
    · intro h
      have h1 : t = [] := by simpa [allTuples] using h
      simp [h1]
    · intro h
      have h1 : t = [] := List.length_eq_zero.mp h.1
      simp [allTuples, h1]
  | succ l ih =>
    intro t
    constructor
    · intro h
      simp only [allTuples, List.mem_flatMap, List.mem_map] at h
      obtain ⟨t', ht', d, hd, rfl⟩ := h
      have h1 := (ih t').mp ht'
      have h2 : d < n := List.mem_range.mp hd
      constructor
      · simp [h1.1]
      · intro x hx
        rcases List.mem_append.mp hx with hx1 | hx2
        · exact h1.2 x hx1
        · have : x = d := by simpa using hx2
          omega
    · intro h
      cases t using List.reverseRecOn with
      | nil => simp at h
      | append_singleton t' d =>
        have h1 : t'.length = l := by
          have := h.1
          simp at this
          omega
        have h2 : ∀ x ∈ t', x < n := fun x hx => h.2 x (List.mem_append.mpr (Or.inl hx))
        have h3 : d < n := h.2 d (List.mem_append.mpr (Or.inr (by simp)))
        simp only [allTuples, List.mem_flatMap, List.mem_map]
        exact ⟨t', (ih t').mpr ⟨h1, h2⟩, d, List.mem_range.mpr h3, rfl⟩

lemma nodup_allTuples (n : Nat) (hn : 0 < n) (l : Nat) : (allTuples n l).Nodup := by
  rw [← map_digits_range n hn l]
  refine List.Nodup.map_on ?_ (List.nodup_range (n ^ l))
  intro i hi j hj hf
  have hi' := List.mem_range.mp hi
  have hj' := List.mem_range.mp hj
  have hd : digitsLSF n l i = digitsLSF n l j := List.reverse_inj.mp hf
  calc i = valLSF n (digitsLSF n l i) := (valLSF_digitsLSF n hn l i hi').symm
    _ = valLSF n (digitsLSF n l j) := by rw [hd]
    _ = j := valLSF_digitsLSF n hn l j hj'

lemma length_allTuples (n : Nat) (hn : 0 < n) (l : Nat) :
    (allTuples n l).length = n ^ l := by
  rw [← map_digits_range n hn l, List.length_map, List.length_range]

/-! ## Lemmas: `int_pow128` -/

lemma powLoop_exact (b : Nat) :
    ∀ e acc, acc * b ^ e < 2 ^ 128 → powLoop b acc e = acc * b ^ e := by
  intro e
  induction e with
  | zero => intro acc _; simp [powLoop]
  | succ e ih =>
    intro acc h
    rcases Nat.eq_zero_or_pos b with hb | hb
    · subst hb
      have hz : ∀ e', powLoop 0 0 e' = 0 := by
        intro e'
        induction e' with
        | zero => rfl
        | succ e' ihz => simp only [powLoop, Nat.mul_zero]; rw [if_pos (by positivity)]; exact ihz
      simp only [powLoop, Nat.mul_zero]
      rw [if_pos (by positivity), hz]
      simp [pow_succ]
    · have hle : acc * b < 2 ^ 128 := by
        have hstep : acc * b ≤ acc * b ^ (e + 1) :=
          Nat.mul_le_mul_left acc (le_self_pow₀ hb (Nat.succ_ne_zero e))
        omega
      simp only [powLoop]
      rw [if_pos hle, ih (acc * b) (by rw [Nat.mul_assoc, ← pow_succ']; exact h)]
      rw [Nat.mul_assoc, ← pow_succ']

lemma powLoop_overflow (b : Nat) :
    ∀ e acc, acc < 2 ^ 128 → 2 ^ 128 ≤ acc * b ^ e → powLoop b acc e = 0 := by
  intro e
  induction e with
  | zero => intro acc h1 h2; simp at h2; omega
  | succ e ih =>
    intro acc h1 h2
    by_cases hbr : acc * b < 2 ^ 128
    · simp only [powLoop]
      rw [if_pos hbr]
      exact ih (acc * b) hbr (by rw [Nat.mul_assoc, ← pow_succ']; exact h2)
    · simp only [powLoop]
      rw [if_neg hbr]

lemma int_pow128_eq (n l : Nat) :
    int_pow128 n l = if n ^ l < 2 ^ 128 then n ^ l else 0 := by
  unfold int_pow128
  split
  · next h => rw [powLoop_exact n l 1 (by simpa using h)]; simp
  · next h =>
    rw [powLoop_overflow n l 1 (by norm_num) (by simpa using Nat.le_of_not_lt h)]

/-! ## Lemmas: the full sequential single-dictionary run -/

lemma worker_range_bound (total numT i : Nat) (hN : 0 < numT) (hi : i < numT) :
    workerStart total numT i + workerCount total numT i ≤ total := by
  rw [← workerStart_succ]
  calc workerStart total numT (i + 1)
      ≤ workerStart total numT numT := workerStart_mono total numT _ _ (by omega)
    _ = total := workerStart_last total numT hN

lemma runLengthLines_eq (words : List WordInfo) (l numT : Nat) (noSp : Bool)
    (hn : 0 < words.length) (hl : 0 < l) (hmax : l ≤ MAX_WORD_LENGTH)
    (hov : words.length ^ l < 2 ^ 128) (hN : 0 < numT) :
    runLengthLines words l numT noSp
      = (allTuples words.length l).map (formatLine words noSp) := by
  have htot : int_pow128 words.length l = words.length ^ l := by
    rw [int_pow128_eq, if_pos hov]
  have hpos : 0 < words.length ^ l := Nat.pos_pow_of_pos l hn
  unfold runLengthLines
  rw [if_neg (by omega)]
  simp only [htot]
  rw [if_neg (by omega)]
  have hstep : ∀ i ∈ List.range numT,
      (workerTuples words.length l (workerStart (words.length ^ l) numT i)
          (workerCount (words.length ^ l) numT i)).map (formatLine words noSp)
        = (List.range' (workerStart (words.length ^ l) numT i)
            (workerCount (words.length ^ l) numT i)).map
            fun j => formatLine words noSp (digitsLSF words.length l j).reverse := by
    intro i hi
    rw [workerTuples_eq words.length l hn _ _
      (worker_range_bound _ _ _ hN (List.mem_range.mp hi)), List.map_map]
    rfl
  rw [List.flatMap_def, List.map_congr_left hstep, ← List.flatMap_def]
  have hpull : ((List.range numT).flatMap fun i =>
      (List.range' (workerStart (words.length ^ l) numT i)
        (workerCount (words.length ^ l) numT i)).map
        fun j => formatLine words noSp (digitsLSF words.length l j).reverse)
      = (((List.range numT).flatMap fun i =>
          List.range' (workerStart (words.length ^ l) numT i)
            (workerCount (words.length ^ l) numT i)).map
          fun j => formatLine words noSp (digitsLSF words.length l j).reverse) := by
    rw [List.map_flatMap]
  rw [hpull, partition_range _ _ hN, ← map_digits_range words.length hn l, List.map_map]
  rfl

/-! ## Lemmas: the sequential combination (prefix x suffix) generator -/

lemma pairOdoRun_eq (s : Nat) (hs : 0 < s) :
    ∀ count i, pairOdoRun s (i / s) (i % s) count
      = (List.range' i count).map fun j => (j / s, j % s) := by
  intro count
  induction count with
  | zero => intro i; simp [pairOdoRun]
  | succ c ih =>
    intro i
    rw [List.range'_succ, List.map_cons]
    simp only [pairOdoRun]
    have hr : i % s < s := Nat.mod_lt i hs
    by_cases hc : i % s + 1 ≥ s
    · have he : i % s + 1 = s := by omega
      have hq := Nat.div_add_mod i s
      have hi : i + 1 = s * (i / s + 1) := by rw [Nat.mul_succ]; omega
      have h1 : (i + 1) % s = 0 := by rw [hi]; exact Nat.mul_mod_right _ _
      have h2 : (i + 1) / s = i / s + 1 := by rw [hi]; exact Nat.mul_div_cancel_left _ hs
      rw [if_pos hc, ← h1, ← h2]
      · rw [ih (i + 1)]
    · have hq := Nat.div_add_mod i s
      have hi : i + 1 = (i % s + 1) + s * (i / s) := by omega
      have h1 : (i + 1) % s = i % s + 1 := by
        rw [hi, Nat.add_mul_mod_self_left, Nat.mod_eq_of_lt (by omega)]
      have h2 : (i + 1) / s = i / s := by
        rw [hi, Nat.add_mul_div_left _ _ hs, Nat.div_eq_of_lt (by omega), Nat.zero_add]
      rw [if_neg hc, ← h1, ← h2]
      · rw [ih (i + 1)]

lemma getD_range_flatMap {β : Type} (xs : List (List Char)) (g : List Char → List β) :
    ((List.range xs.length).flatMap fun q => g (xs.getD q [])) = xs.flatMap g := by
  induction xs with
  | nil => simp
  | cons x rest ih =>
    rw [List.length_cons, List.range_succ_eq_map, List.flatMap_cons]
    simp only [List.getD_cons_zero]
    rw [List.flatMap_map]
    have hsimp : ((List.range rest.length).flatMap fun a => g ((x :: rest).getD (a + 1) []))
        = (List.range rest.length).flatMap fun a => g (rest.getD a []) := by
      apply congrArg
      funext a
      rw [List.getD_cons_succ]
    rw [List.flatMap_cons]
    show g x ++ _ = _
    rw [hsimp, ih]

lemma getD_range_map {β : Type} (xs : List (List Char)) (g : List Char → β) :
    ((List.range xs.length).map fun q => g (xs.getD q [])) = xs.map g := by
  induction xs with
  | nil => simp
  | cons x rest ih =>
    rw [List.length_cons, List.range_succ_eq_map, List.map_cons]
    simp only [List.getD_cons_zero, List.map_map]
    have hsimp : ((List.range rest.length).map fun a => g ((x :: rest).getD (a + 1) []))
        = (List.range rest.length).map fun a => g (rest.getD a []) := by
      apply List.map_congr_left
      intro a _
      rw [List.getD_cons_succ]
    show g x :: ((List.range rest.length).map fun a => g ((x :: rest).getD (a + 1) [])) = _
    rw [hsimp, ih, List.map_cons]

lemma cdSeqLines_eq (pre suf : List (List Char)) (numT : Nat)
    (hs : 0 < suf.length) (hN : 0 < numT) :
    cdSeqLines pre suf numT = generate_sequential_combinations pre suf := by
  unfold cdSeqLines cdWorkerLines
  have hstep : ∀ i ∈ List.range numT,
      ((pairOdoRun suf.length
          (workerStart (pre.length * suf.length) numT i / suf.length)
          (workerStart (pre.length * suf.length) numT i % suf.length)
          (workerCount (pre.length * suf.length) numT i)).map
        fun pr => pre.getD pr.1 [] ++ suf.getD pr.2 [] ++ ['\n'])
      = (List.range' (workerStart (pre.length * suf.length) numT i)
          (workerCount (pre.length * suf.length) numT i)).map
          fun j => pre.getD (j / suf.length) [] ++ suf.getD (j % suf.length) [] ++ ['\n'] := by
    intro i _
    rw [pairOdoRun_eq suf.length hs _ _, List.map_map]
    rfl
  rw [List.flatMap_def, List.map_congr_left hstep, ← List.flatMap_def]
  rw [← List.map_flatMap, partition_range _ _ hN, range_mul_flatMap, List.map_flatMap]
  have hblocks : ∀ q ∈ List.range pre.length,
      (((List.range suf.length).map fun r => q * suf.length + r).map
        fun j => pre.getD (j / suf.length) [] ++ suf.getD (j % suf.length) [] ++ ['\n'])
      = (List.range suf.length).map
          fun r => pre.getD q [] ++ suf.getD r [] ++ ['\n'] := by
    intro q _
    rw [List.map_map]
    apply List.map_congr_left
    intro r hr
    have hrn : r < suf.length := List.mem_range.mp hr
    have h1 : (q * suf.length + r) % suf.length = r := by
      rw [Nat.mul_comm q suf.length, Nat.mul_add_mod, Nat.mod_eq_of_lt hrn]
    have h2 : (q * suf.length + r) / suf.length = q := by
      rw [Nat.mul_comm q suf.length, Nat.mul_add_div hs, Nat.div_eq_of_lt hrn, Nat.add_zero]
    simp [Function.comp, h1, h2]
  rw [List.flatMap_def, List.map_congr_left hblocks, ← List.flatMap_def]
  unfold generate_sequential_combinations
  rw [← getD_range_flatMap pre fun p => suf.map fun s => p ++ s ++ ['\n']]
  apply congrArg
  funext q
  rw [← getD_range_map suf fun s => pre.getD q [] ++ s ++ ['\n']]

/-! ## Lemmas: line formatting -/

lemma formatTokens_false (words : List WordInfo) :
    ∀ idxs : List Nat, formatTokens words false idxs
      = List.intercalate [' '] (idxs.map fun k => (words.getD k defaultWord).word) := by
  intro idxs
  induction idxs with
  | nil => simp [formatTokens, List.intercalate]
  | cons k rest ih =>
    cases rest with
    | nil => simp [formatTokens, List.intercalate]
    | cons k2 r2 =>
      simp only [formatTokens, List.map_cons, List.intercalate,
        List.intersperse_cons_cons, List.flatten_cons] at ih ⊢
      rw [ih]
      simp

lemma formatTokens_true (words : List WordInfo) :
    ∀ idxs : List Nat, formatTokens words true idxs
      = (idxs.map fun k => (words.getD k defaultWord).word).flatten := by
  intro idxs
  induction idxs with
  | nil => simp [formatTokens]
  | cons k rest ih =>
    cases rest with
    | nil => simp [formatTokens]
    | cons k2 r2 =>
      simp only [formatTokens, List.map_cons, List.flatten_cons] at ih ⊢
      rw [ih]
      simp

lemma formatTokens_no_newline (words : List WordInfo) (b : Bool) :
    ∀ idxs : List Nat, (∀ k ∈ idxs, '\n' ∉ (words.getD k defaultWord).word) →
      '\n' ∉ formatTokens words b idxs := by
  intro idxs
  induction idxs with
  | nil => intro _; simp [formatTokens]
  | cons k rest ih =>
    intro h
    cases rest with
    | nil =>
      simp only [formatTokens]
      exact h k (by simp)
    | cons k2 r2 =>
      simp only [formatTokens, List.mem_append]
      push_neg
      refine ⟨⟨h k (by simp), ?_⟩, ?_⟩
      · cases b <;> simp
      · exact ih fun k' hk' => h k' (List.mem_cons_of_mem _ hk')

/-! ## Lemmas: generator.c dictionary loading -/

lemma read_dictionary_tokens (content : List Char) :
    ∀ t ∈ read_dictionary content, '\r' ∉ t ∧ '\n' ∉ t ∧ t ≠ [] := by
  intro t ht
  unfold read_dictionary at ht
  simp only [List.mem_filterMap] at ht
  obtain ⟨line, _, hopt⟩ := ht
  split at hopt
  · exact absurd hopt (by simp)
  · next hne =>
    have ht' : t = line.takeWhile fun c => !(c == '\r') && !(c == '\n') := by
      cases hopt
      rfl
    refine ⟨?_, ?_, ?_⟩
    · intro hmem
      have := List.mem_takeWhile_imp (ht' ▸ hmem)
      simp at this
    · intro hmem
      have := List.mem_takeWhile_imp (ht' ▸ hmem)
      simp at this
    · rw [ht']
      exact hne

lemma fgetsChunk_all : ∀ (s : List Char) (k : Nat), (∀ c ∈ s, c ≠ '\n') →
    s.length ≤ k → fgetsChunk k s = (s, []) := by
  intro s
  induction s with
  | nil => intro k _ _; cases k <;> rfl
  | cons c rest ih =>
    intro k hc hlen
    cases k with
    | zero => simp at hlen
    | succ k =>
      simp only [fgetsChunk]
      rw [if_neg (hc c (by simp))]
      rw [ih k (fun c' hc' => hc c' (List.mem_cons_of_mem _ hc')) (by simpa using hlen)]

lemma read_dictionary_single (w : List Char) (hw : w ≠ [])
    (hcl : ∀ c ∈ w, c ≠ '\r' ∧ c ≠ '\n') (hlen : w.length ≤ 1023) :
    read_dictionary w = [w] := by
  have hchunk : fgetsChunk 1023 w = (w, []) :=
    fgetsChunk_all w 1023 (fun c hc => (hcl c hc).2) hlen
  have hsplit : splitFgets w = [w] := by
    unfold splitFgets
    cases hwl : w.length with
    | zero => exact absurd (List.length_eq_zero.mp hwl) hw
    | succ m =>
      obtain ⟨c, rest, rfl⟩ : ∃ c rest, w = c :: rest := by
        cases w with
        | nil => simp at hwl
        | cons c rest => exact ⟨c, rest, rfl⟩
      simp only [splitFgetsGo, hchunk]
      cases m <;> rfl
  unfold read_dictionary
  rw [hsplit]
  simp only [List.filterMap_cons]
  have htw : (w.takeWhile fun c => !(c == '\r') && !(c == '\n')) = w := by
    rw [List.takeWhile_eq_self_iff]
    intro c hc
    have := hcl c hc
    simp [this.1, this.2]
  rw [htw, if_neg hw]
  rfl

/-! ## Lemmas: combination_dictionary.c line indexing -/

lemma indexLinesGo_no_newline :
    ∀ (rest acc : List Char), '\n' ∉ acc → ∀ t ∈ indexLinesGo acc rest, '\n' ∉ t := by
  intro rest
  induction rest with
  | nil =>
    intro acc hacc t ht
    simp only [indexLinesGo] at ht
    split at ht
    · simp at ht
    · have ht' : t = acc.reverse := by simpa using ht
      rw [ht']
      simpa using hacc
  | cons c rest ih =>
    intro acc hacc t ht
    simp only [indexLinesGo] at ht
    split at ht
    · rcases List.mem_cons.mp ht with h1 | h2
      · rw [h1]
        simpa using hacc
      · exact ih [] (by simp) t h2
    · next hc =>
      refine ih (c :: acc) ?_ t ht
      simp only [List.mem_cons]
      push_neg
      exact ⟨fun h => hc h.symm, hacc⟩

lemma map_and_index_tokens (content : List Char) (ls : List (List Char))
    (h : map_and_index_file content = some ls) : ∀ t ∈ ls, '\n' ∉ t := by
  unfold map_and_index_file at h
  split at h
  · exact absurd h (by simp)
  · split at h
    · exact absurd h (by simp)
    · have hls : ls = indexLines content := by
        cases h
        rfl
      rw [hls]
      exact indexLinesGo_no_newline content [] (by simp)

lemma runLengthLines_nil (l numT : Nat) (noSp : Bool) (hl : 1 ≤ l) :
    runLengthLines [] l numT noSp = [] := by
  unfold runLengthLines
  split
  · rfl
  · have h0 : int_pow128 (List.length ([] : List WordInfo)) l = 0 := by
      rw [int_pow128_eq, List.length_nil, Nat.zero_pow (by omega : 0 < l),
        if_pos (by norm_num)]
    simp only [h0]
    rw [if_pos ⟨by simp, Or.inr (by omega)⟩]

lemma length_gen_seq (pre suf : List (List Char)) :
    (generate_sequential_combinations pre suf).length = pre.length * suf.length := by
  unfold generate_sequential_combinations
  induction pre with
  | nil => simp
  | cons p rest ih =>
    rw [List.flatMap_cons, List.length_append, List.length_map, ih, List.length_cons,
      Nat.succ_mul]
    omega

/-! ## Claim theorems -/

set_option maxRecDepth 1000000

/-- C1 (counterexample): with a one-token dictionary and tuple length 257
all of the claim's hypotheses hold — n = 1, L = 257 ≥ 1, n^L = 1 does not
overflow 128 bits, N = 1 — yet the sequential run emits no lines instead
of n^L = 1 line, because `main` silently skips every length above
`MAX_WORD_LENGTH = 256`. -/
theorem claim1_counterexample :
    runLengthLines [⟨['a'], 1⟩] 257 1 false = []
    ∧ (([⟨['a'], 1⟩] : List WordInfo).length : Nat) ^ 257 = 1 := by
  exact ⟨by decide, by norm_num⟩

/-- C1 (amended: the tuple length must additionally satisfy L ≤ 256, since
`main` skips larger lengths): for every dictionary of size n ≥ 1, length
1 ≤ L ≤ 256 with n^L < 2^128 and thread count N ≥ 1, the sequential
single-dictionary run emits exactly the cartesian power D^L in
lexicographic order: the emitted lines are the formatted `allTuples`,
there are exactly n^L of them, the tuple enumeration has no duplicates,
and it contains precisely the length-L index tuples over the dictionary —
the output is one fixed list independent of N, so in particular the set of
emitted tuples is the same for every thread count. -/
theorem claim1_amended (words : List WordInfo) (l numT : Nat) (noSp : Bool)
    (hn : 1 ≤ words.length) (hl : 1 ≤ l) (hmax : l ≤ 256)
    (hov : words.length ^ l < 2 ^ 128) (hN : 1 ≤ numT) :
    runLengthLines words l numT noSp = (allTuples words.length l).map (formatLine words noSp)
    ∧ (runLengthLines words l numT noSp).length = words.length ^ l
    ∧ (allTuples words.length l).Nodup
    ∧ (∀ t, t ∈ allTuples words.length l ↔ (t.length = l ∧ ∀ d ∈ t, d < words.length)) := by
  have h1 := runLengthLines_eq words l numT noSp hn hl
    (by simpa [MAX_WORD_LENGTH] using hmax) hov hN
  refine ⟨h1, ?_, nodup_allTuples _ hn _, fun t => mem_allTuples _ _ t⟩
  rw [h1, List.length_map, length_allTuples _ hn]

/-- C1 (witness): a concrete instance of the amended claim, dictionary of
two one-byte tokens, length 2, three threads. -/
theorem claim1_witness :
    (1 ≤ ([⟨['a'], 1⟩, ⟨['b'], 1⟩] : List WordInfo).length)
    ∧ (1 ≤ 2) ∧ (2 ≤ 256)
    ∧ (([⟨['a'], 1⟩, ⟨['b'], 1⟩] : List WordInfo).length ^ 2 < 2 ^ 128)
    ∧ (1 ≤ 3)
    ∧ runLengthLines [⟨['a'], 1⟩, ⟨['b'], 1⟩] 2 3 false
        = (allTuples ([⟨['a'], 1⟩, ⟨['b'], 1⟩] : List WordInfo).length 2).map
            (formatLine [⟨['a'], 1⟩, ⟨['b'], 1⟩] false) :=
  ⟨by decide, by decide, by decide, by decide, by decide,
    (claim1_amended [⟨['a'], 1⟩, ⟨['b'], 1⟩] 2 3 false (by decide) (by decide)
      (by decide) (by decide) (by decide)).1⟩

/-- C2: sequential prefix/suffix generation with any thread count N ≥ 1
emits exactly p·s lines, equal as a list to the nested-loop enumeration
that concatenates each prefix entry with each suffix entry (no separator,
one trailing newline each), so every (prefix, suffix) pair is covered
exactly once. -/
theorem claim2_pair_coverage (pre suf : List (List Char)) (numT : Nat)
    (hp : 1 ≤ pre.length) (hs : 1 ≤ suf.length) (hN : 1 ≤ numT) :
    cdSeqLines pre suf numT = generate_sequential_combinations pre suf
    ∧ (cdSeqLines pre suf numT).length = pre.length * suf.length := by
  have h1 := cdSeqLines_eq pre suf numT hs hN
  exact ⟨h1, by rw [h1, length_gen_seq]⟩

/-- C2 (witness): the concrete scenario of the specification,
prefix `["x","y"]` and suffix `["1","2"]` with two threads. -/
theorem claim2_witness :
    (1 ≤ ([['x'], ['y']] : List (List Char)).length)
    ∧ (1 ≤ ([['1'], ['2']] : List (List Char)).length)
    ∧ (1 ≤ 2)
    ∧ cdSeqLines [['x'], ['y']] [['1'], ['2']] 2
        = generate_sequential_combinations [['x'], ['y']] [['1'], ['2']] :=
  ⟨by decide, by decide, by decide,
    (claim2_pair_coverage [['x'], ['y']] [['1'], ['2']] 2 (by decide) (by decide)
      (by decide)).1⟩

/-- C3: for every total and every worker count N ≥ 1, worker `i` is
assigned the count `total / N + 1` when `i < total % N` and `total / N`
otherwise, the start indices are contiguous in increasing order from 0,
and the N half-open ranges are pairwise disjoint with union exactly
`[0, total)`. -/
theorem claim3_partitioner (total numT : Nat) (hN : 1 ≤ numT) :
    (∀ i, workerCount total numT i
        = total / numT + (if i < total % numT then 1 else 0))
    ∧ (∀ i, workerStart total numT (i + 1)
        = workerStart total numT i + workerCount total numT i)
    ∧ ((List.range numT).flatMap fun i =>
        List.range' (workerStart total numT i) (workerCount total numT i))
        = List.range total
    ∧ (∀ i j, i < numT → j < numT → i ≠ j → ∀ x,
        x ∈ List.range' (workerStart total numT i) (workerCount total numT i) →
          x ∉ List.range' (workerStart total numT j) (workerCount total numT j)) := by
  refine ⟨fun i => rfl, fun i => workerStart_succ total numT i,
    partition_range total numT hN, ?_⟩
  have key : ∀ i j, i < j → ∀ x,
      x ∈ List.range' (workerStart total numT i) (workerCount total numT i) →
        x ∉ List.range' (workerStart total numT j) (workerCount total numT j) := by
    intro i j hij x hxi hxj
    rw [List.mem_range'_1] at hxi hxj
    have h1 : workerStart total numT i + workerCount total numT i
        ≤ workerStart total numT j := by
      rw [← workerStart_succ]
      exact workerStart_mono total numT _ _ (by omega)
    omega
  intro i j _ _ hne x hxi hxj
  rcases Nat.lt_or_ge i j with h | h
  · exact key i j h x hxi hxj
  · exact key j i (by omega) x hxj hxi

/-- C3 (witness): the partition of 7 combinations over 3 workers covers
`[0, 7)` exactly. -/
theorem claim3_witness :
    (1 ≤ 3)
    ∧ ((List.range 3).flatMap fun i =>
        List.range' (workerStart 7 3 i) (workerCount 7 3 i)) = List.range 7 :=
  ⟨by decide, (claim3_partitioner 7 3 (by decide)).2.2.1⟩

/-- C4: for the power topology the total is the exact value n^L computed
in 128 bits — when n^L fits in 128 bits `int_pow128` returns it, otherwise
it returns the overflow sentinel 0 — and a length whose total is 0 is
skipped entirely (no output lines for that length) while the process still
exits with code 0 rather than reporting an error. -/
theorem claim4_int_pow128 (words : List WordInfo) (l numT : Nat) (noSp : Bool)
    (hl : 1 ≤ l) :
    int_pow128 words.length l
      = (if words.length ^ l < 2 ^ 128 then words.length ^ l else 0)
    ∧ (int_pow128 words.length l = 0 →
        runLengthLines words l numT noSp = []
        ∧ (generatorMain words l l numT noSp).1 = 0) := by
  refine ⟨int_pow128_eq _ _, fun h0 => ⟨?_, rfl⟩⟩
  unfold runLengthLines
  split
  · rfl
  · simp only [h0]
    rw [if_pos ⟨by simp, Or.inr (by omega)⟩]

/-- C4 (witness): a two-token dictionary at length 128 overflows
(2^128 is outside the unsigned 128-bit range), the total becomes 0 and the
length is skipped. -/
theorem claim4_witness :
    (1 ≤ 128)
    ∧ int_pow128 ([⟨['a'], 1⟩, ⟨['b'], 1⟩] : List WordInfo).length 128 = 0
    ∧ runLengthLines [⟨['a'], 1⟩, ⟨['b'], 1⟩] 128 1 false = [] :=
  ⟨by decide, by decide,
    ((claim4_int_pow128 [⟨['a'], 1⟩, ⟨['b'], 1⟩] 128 1 false (by decide)).2
      (by decide)).1⟩

/-- C5 (counterexample): the single-dictionary generator with an empty
dictionary (zero usable tokens) produces no output lines but exits with
code 0, not a non-zero code: every requested length is silently skipped by
the zero-total test and `main` falls through to `return 0`. -/
theorem claim5_counterexample : generatorMain [] 1 1 1 false = (0, []) := by decide

/-- C5 (amended: only the prefix/suffix generator exits non-zero on an
empty dictionary; the single-dictionary generator emits no output lines
but exits with code 0): with zero loaded tokens the generator produces
`(0, [])` for any length range starting at 1 and any thread count, while
`combination_dictionary` fails with exit code 1 and no output when the
prefix file is empty. -/
theorem claim5_amended (sLen eLen numT : Nat) (noSp : Bool) (sufContent : List Char)
    (h1 : 1 ≤ sLen) (h2 : 1 ≤ eLen) :
    generatorMain [] sLen eLen numT noSp = (0, [])
    ∧ cdMain [] sufContent numT = (1, []) := by
  constructor
  · simp only [generatorMain]
    have hall : ((List.range' (if sLen ≤ eLen then sLen else eLen)
        ((if sLen ≤ eLen then eLen else sLen) + 1
          - (if sLen ≤ eLen then sLen else eLen))).flatMap
        fun l => runLengthLines [] l numT noSp) = [] := by
      apply List.flatMap_eq_nil_iff.mpr
      intro l hl
      have hge := (List.mem_range'_1.mp hl).1
      apply runLengthLines_nil
      split at hge <;> omega
    rw [hall]
  · simp [cdMain, map_and_index_file]

/-- C5 (witness): a concrete instance of the amended claim. -/
theorem claim5_witness :
    (1 ≤ 1) ∧ (1 ≤ 2)
    ∧ generatorMain [] 1 2 3 false = (0, [])
    ∧ cdMain [] ['x'] 3 = (1, []) :=
  ⟨by decide, by decide,
    (claim5_amended 1 2 3 false ['x'] (by decide) (by decide)).1,
    (claim5_amended 1 2 3 false ['x'] (by decide) (by decide)).2⟩

/-- C6 (code bug, evaluation at the failing input): the flush test of the
single-dictionary worker compares the remaining capacity against the fixed
constant `MAX_LINE_SIZE = 2048`, not against the combination's worst-case
formatted size.  With a dictionary of two 1023-byte words and length 127
every line is 127·1023 + 126 + 1 = 130048 bytes; before the 33rd line the
offset is 32·130048 = 4161536, the remaining 32768 bytes do not trigger a
flush, and the line write ends at 4291584 > 4194304 — outside the buffer.
`seqWriteBound` (the embedded buffer dynamics) therefore reports an
out-of-bounds write. -/
theorem claim6_buffer_overflow_eval :
    seqWriteBound [⟨List.replicate 1023 'a', 1023⟩, ⟨List.replicate 1023 'b', 1023⟩]
      false 127 0 33 = false := by decide

/-- C7: when the dictionary size is a power of two, the shift/mask
decomposition with `shift_bits = log2 n` and `mask = n - 1` produces
exactly the same digit list as the general division/modulo base-n
decomposition, for every linear index and every length. -/
theorem claim7_shift_mask (n l idx : Nat) (h : is_power_of_two n = true) :
    digitsMaskLSF (shiftBits n) (n - 1) l idx = digitsLSF n l idx := by
  obtain ⟨k, rfl⟩ := is_power_of_two_spec h
  rw [shiftBits_pow]
  exact digitsMaskLSF_eq k l idx

/-- C7 (witness): dictionary size 8, length 3, index 2025. -/
theorem claim7_witness :
    is_power_of_two 8 = true
    ∧ digitsMaskLSF (shiftBits 8) 7 3 2025 = digitsLSF 8 3 2025 :=
  ⟨by decide, claim7_shift_mask 8 3 2025 (by decide)⟩

/-- C8 (counterexample): `map_and_index_file` of combination_dictionary.c
splits on `'\n'` only, so loading the file bytes `"a\r\n"` yields the
token `['a', '\r']`, which still contains the carriage return — the claim
that every loader strips `\r\n` (no trailing `'\r'`) is false for this
loader. -/
theorem claim8_counterexample :
    map_and_index_file ['a', '\r', '\n'] = some [['a', '\r']]
    ∧ '\r' ∈ (['a', '\r'] : List Char) :=
  ⟨by decide, by decide⟩

/-- C8 (amended: only generator.c's `read_dictionary` strips `'\r'`;
combination_dictionary.c strips `'\n'` only, keeping a trailing `'\r'`):
every token loaded by `read_dictionary` contains neither `'\r'` nor `'\n'`
and is nonempty; a last line lacking a trailing terminator is still
accepted as a final token; and the combination loader's tokens are only
guaranteed free of `'\n'`. -/
theorem claim8_amended (content w : List Char) (hw : w ≠ [])
    (hcl : ∀ c ∈ w, c ≠ '\r' ∧ c ≠ '\n') (hwlen : w.length ≤ 1023) :
    (∀ t ∈ read_dictionary content, '\r' ∉ t ∧ '\n' ∉ t ∧ t ≠ [])
    ∧ read_dictionary w = [w]
    ∧ (∀ ls, map_and_index_file content = some ls → ∀ t ∈ ls, '\n' ∉ t) :=
  ⟨read_dictionary_tokens content, read_dictionary_single w hw hcl hwlen,
    fun ls h => map_and_index_tokens content ls h⟩

/-- C8 (witness): the unterminated two-byte file `"hi"` is accepted as the
single final token. -/
theorem claim8_witness :
    (['h', 'i'] : List Char) ≠ []
    ∧ (∀ c ∈ (['h', 'i'] : List Char), c ≠ '\r' ∧ c ≠ '\n')
    ∧ (['h', 'i'] : List Char).length ≤ 1023
    ∧ read_dictionary ['h', 'i'] = [['h', 'i']] :=
  ⟨by decide, by decide, by decide,
    (claim8_amended ['x', '\n', 'y'] ['h', 'i'] (by decide) (by decide) (by decide)).2.1⟩

/-- C9: formatting a combination writes, without the no-separator option,
exactly one space between consecutive tokens and none after the last
(`intercalate`), with the option set no separator at all (`flatten`); in
both cases token order and content are untouched, and when no token
contains a newline the line ends with exactly one `'\n'`. -/
theorem claim9_separator (words : List WordInfo) (idxs : List Nat) (b : Bool)
    (hclean : ∀ k ∈ idxs, '\n' ∉ (words.getD k defaultWord).word) :
    formatLine words false idxs
      = List.intercalate [' '] (idxs.map fun k => (words.getD k defaultWord).word)
        ++ ['\n']
    ∧ formatLine words true idxs
      = (idxs.map fun k => (words.getD k defaultWord).word).flatten ++ ['\n']
    ∧ (formatLine words b idxs).count '\n' = 1 := by
  refine ⟨by rw [formatLine, formatTokens_false],
    by rw [formatLine, formatTokens_true], ?_⟩
  unfold formatLine
  rw [List.count_append]
  have h0 : (formatTokens words b idxs).count '\n' = 0 :=
    List.count_eq_zero.mpr (formatTokens_no_newline words b idxs hclean)
  rw [h0]
  simp

/-- C9 (witness): a one-word dictionary formatted at indices `[0, 0]`. -/
theorem claim9_witness :
    (∀ k ∈ ([0, 0] : List Nat),
      '\n' ∉ (([⟨['a'], 1⟩] : List WordInfo).getD k defaultWord).word)
    ∧ (formatLine [⟨['a'], 1⟩] false [0, 0]).count '\n' = 1 :=
  ⟨by decide, (claim9_separator [⟨['a'], 1⟩] [0, 0] false (by decide)).2.2⟩

/-- C10: every requested tuple length greater than `MAX_WORD_LENGTH = 256`
is silently skipped: the length contributes no output lines and the
process still exits with code 0. -/
theorem claim10_maxlen_skip (words : List WordInfo) (l numT : Nat) (noSp : Bool)
    (h : 256 < l) :
    runLengthLines words l numT noSp = []
    ∧ generatorMain words l l numT noSp = (0, []) := by
  have h1 : runLengthLines words l numT noSp = [] := by
    unfold runLengthLines
    rw [if_pos (by simpa [MAX_WORD_LENGTH] using h)]
  refine ⟨h1, ?_⟩
  simp only [generatorMain, ite_self, Nat.add_sub_cancel_left, List.range'_one,
    List.flatMap_cons, List.flatMap_nil, List.append_nil, h1]

/-- C10 (witness): length 257 with a one-word dictionary and 4 threads. -/
theorem claim10_witness :
    (256 < 257) ∧ runLengthLines [⟨['a'], 1⟩] 257 4 true = [] :=
  ⟨by decide, (claim10_maxlen_skip [⟨['a'], 1⟩] 257 4 true (by decide)).1⟩

end Dict
